import Mathlib

/-!
Verification of `view/services/statistics_worker.py` from the profileview
repository.  Python functions are shallowly embedded as executable Lean
definitions; Python dictionaries become association lists (unique keys,
insertion order), Python lists become Lean lists, and the host-application
calls (database API, filesystem, pickle) are modelled as explicit parameters
or small state machines as documented at each definition.
-/

namespace StatisticsWorker

/-! ## `bisect` / `KeyWrapper` / `analyze_change`

`analyze_change(obj_list, obj_handle, change, max_length)` keeps a bounded
list of `(handle, change)` pairs:

    bsindex = bisect(KeyWrapper(obj_list, key=lambda c: c[1]), change)
    obj_list.insert(bsindex, (obj_handle, change))
    if len(obj_list) > max_length:
        obj_list.pop(max_length)

`KeyWrapper` presents the list of second components to `bisect`, so the
binary search runs over `obj_list.map Prod.snd`.  CPython's `bisect`
(= `bisect_right`) is the loop

    while lo < hi:
        mid = (lo+hi)//2
        if x < a[mid]: hi = mid
        else: lo = mid+1
    return lo

embedded below with explicit fuel (the loop terminates because `hi - lo`
strictly decreases; fuel `hi - lo` is always enough). -/

/-- One byte-for-byte transcription of CPython `bisect_right`'s `while` loop,
with fuel.  `a.getD mid 0` is `a[mid]`; the loop only reads indices in
`[lo, hi)`. -/
def bisectLoop : Nat → List Int → Int → Nat → Nat → Nat
  | 0, _, _, lo, _ => lo
  | fuel + 1, a, x, lo, hi =>
    if lo < hi then
      let mid := (lo + hi) / 2
      if x < a.getD mid 0 then bisectLoop fuel a x lo mid
      else bisectLoop fuel a x (mid + 1) hi
    else lo

/-- `bisect(KeyWrapper(obj_list, key=lambda c: c[1]), change)`:
binary search over the `change` components of the list. -/
def bisect (objList : List (String × Int)) (x : Int) : Nat :=
  bisectLoop objList.length (objList.map Prod.snd) x 0 objList.length

/-- Python `list.insert(i, x)`: inserts before index `i`; an index past the
end appends. -/
def pyInsert (l : List (String × Int)) (i : Nat) (p : String × Int) :
    List (String × Int) :=
  l.take i ++ p :: l.drop i

/-- `analyze_change` from `statistics_worker.py`: insert `(obj_handle, change)`
at the bisection point of the `change`-sorted list, then `pop(max_length)`
(Python `list.pop(i)` removes the element at index `i`) when the list grew
beyond `max_length`. -/
def analyze_change (objList : List (String × Int)) (objHandle : String)
    (change : Int) (maxLength : Nat) : List (String × Int) :=
  let bsindex := bisect objList change
  let inserted := pyInsert objList bsindex (objHandle, change)
  if maxLength < inserted.length then inserted.eraseIdx maxLength else inserted

/-- The repeated calls `analyze_change(last_changed, h, c, 20)` made by the
examine workers, one per record, starting from the empty list. -/
def runChanges (records : List (String × Int)) : List (String × Int) :=
  records.foldl (fun acc r => analyze_change acc r.1 r.2 20) []

example : analyze_change [] "a" 5 20 = [("a", 5)] := by decide
example : analyze_change [("a", 1), ("c", 7)] "b" 3 20 =
    [("a", 1), ("b", 3), ("c", 7)] := by decide
example : analyze_change [("a", 1), ("b", 3)] "c" 7 2 =
    [("a", 1), ("b", 3)] := by decide

/-! ### Correctness of the embedded binary search on sorted lists -/

/-- Monotonicity of indexed access on a `≤`-sorted list of integers. -/
theorem getD_mono_of_pairwise (a : List Int) (hs : a.Pairwise (· ≤ ·))
    (i j : Nat) (hij : i ≤ j) (hj : j < a.length) :
    a.getD i 0 ≤ a.getD j 0 := by
  rcases Nat.lt_or_ge i j with hlt | hge
  · rw [List.getD_eq_getElem a 0 (Nat.lt_trans hlt hj),
      List.getD_eq_getElem a 0 hj]
    exact List.pairwise_iff_getElem.mp hs i j _ hj hlt
  · have : i = j := Nat.le_antisymm hij hge
    subst this
    exact le_refl _

/-- Loop invariant of `bisectLoop` on a sorted array: the result `r` lies in
`[lo, hi]`, every index below `r` holds a value `≤ x`, and every index from
`r` on holds a value `> x`. -/
theorem bisectLoop_invariant (a : List Int) (x : Int)
    (hs : a.Pairwise (· ≤ ·)) :
    ∀ (fuel lo hi : Nat), lo ≤ hi → hi ≤ a.length → hi - lo ≤ fuel →
      (∀ j, j < lo → a.getD j 0 ≤ x) →
      (∀ j, hi ≤ j → j < a.length → x < a.getD j 0) →
      lo ≤ bisectLoop fuel a x lo hi ∧ bisectLoop fuel a x lo hi ≤ hi ∧
      (∀ j, j < bisectLoop fuel a x lo hi → a.getD j 0 ≤ x) ∧
      (∀ j, bisectLoop fuel a x lo hi ≤ j → j < a.length → x < a.getD j 0)
  | 0, lo, hi, hlohi, hhi, hfuel, hlo, hhiP => by
    have heq : lo = hi := by omega
    subst heq
    simp only [bisectLoop]
    exact ⟨le_refl _, le_refl _, hlo, hhiP⟩
  | fuel + 1, lo, hi, hlohi, hhi, hfuel, hlo, hhiP => by
    by_cases hlt : lo < hi
    · have hmidlo : lo ≤ (lo + hi) / 2 := by omega
      have hmidhi : (lo + hi) / 2 < hi := by omega
      by_cases hx : x < a.getD ((lo + hi) / 2) 0
      · have hrec := bisectLoop_invariant a x hs fuel lo ((lo + hi) / 2)
          hmidlo (le_trans (Nat.le_of_lt hmidhi) hhi) (by omega) hlo
          (fun j hj hjlen =>
            lt_of_lt_of_le hx (getD_mono_of_pairwise a hs _ j hj hjlen))
        simp only [bisectLoop, if_pos hlt, if_pos hx]
        exact ⟨hrec.1, le_trans hrec.2.1 (Nat.le_of_lt hmidhi), hrec.2.2⟩
      · push_neg at hx
        have hrec := bisectLoop_invariant a x hs fuel ((lo + hi) / 2 + 1) hi
          (by omega) hhi (by omega)
          (fun j hj =>
            le_trans
              (getD_mono_of_pairwise a hs j ((lo + hi) / 2) (by omega)
                (by omega)) hx)
          hhiP
        simp only [bisectLoop, if_pos hlt, if_neg (not_lt.mpr hx)]
        exact ⟨le_trans (by omega) hrec.1, hrec.2⟩
    · have heq : lo = hi := by omega
      subst heq
      simp only [bisectLoop, if_neg hlt]
      exact ⟨le_refl _, le_refl _, hlo, hhiP⟩

/-- Specification of `bisect` on a list sorted by change value:
the insertion point separates the values `≤ x` from the values `> x`. -/
theorem bisect_spec (l : List (String × Int)) (x : Int)
    (hs : l.Pairwise (fun a b => a.2 ≤ b.2)) :
    bisect l x ≤ l.length ∧
    (∀ j, j < bisect l x → (hj : j < l.length) → (l.get ⟨j, hj⟩).2 ≤ x) ∧
    (∀ j, bisect l x ≤ j → (hj : j < l.length) → x < (l.get ⟨j, hj⟩).2) := by
  have hmap : (l.map Prod.snd).Pairwise (· ≤ ·) := by
    rw [List.pairwise_map]
    exact hs
  have hinv := bisectLoop_invariant (l.map Prod.snd) x hmap l.length 0
    l.length (Nat.zero_le _) (by simp) (by simp)
    (fun j hj => absurd hj (Nat.not_lt_zero j))
    (fun j hj hjlen => by simp only [List.length_map] at hjlen; omega)
  refine ⟨by simpa using hinv.2.1, ?_, ?_⟩
  · intro j hj hjl
    have := hinv.2.2.1 j hj
    rwa [List.getD_eq_getElem _ 0 (by simpa using hjl),
      List.getElem_map] at this
  · intro j hj hjl
    have := hinv.2.2.2 j hj (by simpa using hjl)
    rwa [List.getD_eq_getElem _ 0 (by simpa using hjl),
      List.getElem_map] at this

/-- Python `insert` always grows the list by exactly one element. -/
theorem pyInsert_length (l : List (String × Int)) (i : Nat)
    (p : String × Int) : (pyInsert l i p).length = l.length + 1 := by
  simp only [pyInsert, List.length_append, List.length_take,
    List.length_cons, List.length_drop]
  omega

/-- Inserting at the bisection point keeps the list sorted by change value. -/
theorem pyInsert_bisect_pairwise (l : List (String × Int)) (hdl : String)
    (x : Int) (hs : l.Pairwise (fun a b => a.2 ≤ b.2)) :
    (pyInsert l (bisect l x) (hdl, x)).Pairwise (fun a b => a.2 ≤ b.2) := by
  obtain ⟨-, hpre, hsuf⟩ := bisect_spec l x hs
  have htake : ∀ p ∈ l.take (bisect l x), p.2 ≤ x := by
    intro p hp
    obtain ⟨j, hj, hget⟩ := List.mem_iff_getElem.mp hp
    have hjb : j < bisect l x := by
      rw [List.length_take] at hj
      omega
    have hjl : j < l.length := by
      rw [List.length_take] at hj
      omega
    have := hpre j hjb hjl
    rw [← hget, List.getElem_take]
    simpa [List.get_eq_getElem] using this
  have hdrop : ∀ p ∈ l.drop (bisect l x), x < p.2 := by
    intro p hp
    obtain ⟨j, hj, hget⟩ := List.mem_iff_getElem.mp hp
    have hjl : bisect l x + j < l.length := by
      rw [List.length_drop] at hj
      omega
    have := hsuf (bisect l x + j) (Nat.le_add_right _ _) hjl
    rw [← hget, List.getElem_drop]
    simpa [List.get_eq_getElem] using this
  unfold pyInsert
  rw [List.pairwise_append]
  refine ⟨List.Pairwise.sublist (List.take_sublist _ _) hs, ?_, ?_⟩
  · rw [List.pairwise_cons]
    exact ⟨fun p hp => le_of_lt (hdrop p hp),
      List.Pairwise.sublist (List.drop_sublist _ _) hs⟩
  · intro a ha b hb
    rcases List.mem_cons.mp hb with hb | hb
    · subst hb
      exact htake a ha
    · exact le_trans (htake a ha) (le_of_lt (hdrop b hb))

/-- `analyze_change` keeps the list sorted in ascending order of change. -/
theorem analyze_change_pairwise (l : List (String × Int)) (hdl : String)
    (c : Int) (m : Nat) (hs : l.Pairwise (fun a b => a.2 ≤ b.2)) :
    (analyze_change l hdl c m).Pairwise (fun a b => a.2 ≤ b.2) := by
  unfold analyze_change
  by_cases hlen : m < (pyInsert l (bisect l c) (hdl, c)).length
  · simp only [if_pos hlen]
    exact List.Pairwise.sublist (List.eraseIdx_sublist _ m)
      (pyInsert_bisect_pairwise l hdl c hs)
  · simp only [if_neg hlen]
    exact pyInsert_bisect_pairwise l hdl c hs

/-- `analyze_change` keeps the list within the `max_length` bound. -/
theorem analyze_change_length (l : List (String × Int)) (hdl : String)
    (c : Int) (m : Nat) (hlen : l.length ≤ m) :
    (analyze_change l hdl c m).length ≤ m := by
  unfold analyze_change
  by_cases hgrew : m < (pyInsert l (bisect l c) (hdl, c)).length
  · rw [if_pos hgrew, List.length_eraseIdx, if_pos hgrew, pyInsert_length]
    omega
  · rw [if_neg hgrew, pyInsert_length]
    rw [pyInsert_length] at hgrew
    omega

/-- The fold of `analyze_change` over any record stream, started from the
empty list, yields a sorted list of at most 20 entries. -/
theorem runChanges_invariant (records : List (String × Int)) :
    (runChanges records).Pairwise (fun a b => a.2 ≤ b.2) ∧
    (runChanges records).length ≤ 20 := by
  unfold runChanges
  generalize hacc : ([] : List (String × Int)) = acc
  have hsort : acc.Pairwise (fun a b : String × Int => a.2 ≤ b.2) := by
    rw [← hacc]
    exact List.Pairwise.nil
  have hlen : acc.length ≤ 20 := by
    rw [← hacc]
    simp
  clear hacc
  induction records generalizing acc with
  | nil => exact ⟨hsort, hlen⟩
  | cons r rest ih =>
    simp only [List.foldl_cons]
    exact ih _ (analyze_change_pairwise _ _ _ _ hsort)
      (analyze_change_length _ _ _ _ hlen)

/-! ## Effect skeletons of the examine workers

For the claims about resource handling and fan-out/fan-in we record, for
each of the ten `examine_*` handlers registered in `TASK_HANDLERS`, the
sequence of host-effect calls it makes at top level: open the database
(`open_readonly_database`), iterate over the records, close the database
(`close_readonly_database`), and put the payload on the queue
(`queue.put(payload)`).  The traces below transcribe the order of these
calls in each handler's body. -/

inductive PEv
  | openDB
  | iterRecords
  | closeDB
  | putPayload
deriving DecidableEq

inductive ObjType
  | person
  | family
  | event
  | place
  | media
  | source
  | citation
  | repository
  | note
  | tag
deriving DecidableEq

/-- The ten object types, in `TASK_HANDLERS` order. -/
def ObjType.all : List ObjType :=
  [.person, .family, .event, .place, .media, .source, .citation,
   .repository, .note, .tag]

/-- The key each object type has in `TASK_HANDLERS` / `get_object_list`. -/
def typeName : ObjType → String
  | .person => "Person"
  | .family => "Family"
  | .event => "Event"
  | .place => "Place"
  | .media => "Media"
  | .source => "Source"
  | .citation => "Citation"
  | .repository => "Repository"
  | .note => "Note"
  | .tag => "Tag"

/-- Top-level host-effect sequence of each `examine_*` handler.  Every
handler opens the database, iterates, and puts one payload; all except
`examine_media` call `close_readonly_database(db)` between the iteration
and the `queue.put(payload)` — `examine_media`'s body goes straight from
its record loop to building and queueing the payload. -/
def handlerTrace : ObjType → List PEv
  | .person => [.openDB, .iterRecords, .closeDB, .putPayload]
  | .family => [.openDB, .iterRecords, .closeDB, .putPayload]
  | .event => [.openDB, .iterRecords, .closeDB, .putPayload]
  | .place => [.openDB, .iterRecords, .closeDB, .putPayload]
  | .media => [.openDB, .iterRecords, .putPayload]
  | .source => [.openDB, .iterRecords, .closeDB, .putPayload]
  | .citation => [.openDB, .iterRecords, .closeDB, .putPayload]
  | .repository => [.openDB, .iterRecords, .closeDB, .putPayload]
  | .note => [.openDB, .iterRecords, .closeDB, .putPayload]
  | .tag => [.openDB, .iterRecords, .closeDB, .putPayload]

/-- A database close occurs before the payload is queued. -/
def closesBeforePut (tr : List PEv) : Bool :=
  (tr.takeWhile fun e => !(e == PEv.putPayload)).contains PEv.closeDB

/-- Number of `queue.put` calls in a handler's effect sequence. -/
def putCount (tr : List PEv) : Nat :=
  tr.count PEv.putPayload

/-! ## `get_object_list`

The database is modelled by its ten per-type record counts; the function
builds the `(name, count)` list, sorts it by descending count
(`object_list.sort(key=lambda x: x[1], reverse=True)` — a stable sort, to
which Mathlib's stable `insertionSort` with the total preorder
`b.2 ≤ a.2` corresponds), and returns the total and the name list. -/

structure DbCounts where
  people : Nat
  families : Nat
  events : Nat
  places : Nat
  media : Nat
  sources : Nat
  citations : Nat
  repositories : Nat
  notes : Nat
  tags : Nat

/-- The ten object type names in the order `get_object_list` builds them. -/
def tenNames : List String :=
  ["Person", "Family", "Event", "Place", "Media", "Source", "Citation",
   "Repository", "Note", "Tag"]

/-- The `object_list` of `(name, count)` pairs before sorting. -/
def objectList (d : DbCounts) : List (String × Nat) :=
  [("Person", d.people), ("Family", d.families), ("Event", d.events),
   ("Place", d.places), ("Media", d.media), ("Source", d.sources),
   ("Citation", d.citations), ("Repository", d.repositories),
   ("Note", d.notes), ("Tag", d.tags)]

/-- `object_list.sort(key=lambda x: x[1], reverse=True)`: stable sort by
non-increasing count. -/
def sortDescending (l : List (String × Nat)) : List (String × Nat) :=
  List.insertionSort (fun a b => b.2 ≤ a.2) l

/-- `get_object_list`: total record count and the type names ordered by
descending object count. -/
def get_object_list (d : DbCounts) : Nat × List String :=
  (((sortDescending (objectList d)).map Prod.snd).sum,
   (sortDescending (objectList d)).map Prod.fst)

instance : IsTotal (String × Nat) (fun a b => b.2 ≤ a.2) :=
  ⟨fun a b => (Nat.le_total a.2 b.2).symm⟩

instance : IsTrans (String × Nat) (fun a b => b.2 ≤ a.2) :=
  ⟨fun _ _ _ hab hbc => le_trans hbc hab⟩

/-- The sorted object list is a permutation of the built one. -/
theorem sortDescending_perm (l : List (String × Nat)) :
    (sortDescending l).Perm l :=
  List.perm_insertionSort _ l

/-- The sorted object list is pairwise non-increasing in its counts. -/
theorem sortDescending_pairwise (l : List (String × Nat)) :
    (sortDescending l).Pairwise (fun a b => b.2 ≤ a.2) :=
  List.sorted_insertionSort _ l

/-- The names returned by `get_object_list` are a permutation of the ten
object type names. -/
theorem get_object_list_perm (d : DbCounts) :
    (get_object_list d).2.Perm tenNames :=
  (sortDescending_perm (objectList d)).map Prod.fst

/-- The total returned by `get_object_list` is the sum of the ten counts. -/
theorem get_object_list_total (d : DbCounts) :
    (get_object_list d).1 =
      d.people + d.families + d.events + d.places + d.media + d.sources +
      d.citations + d.repositories + d.notes + d.tags := by
  have hperm := ((sortDescending_perm (objectList d)).map Prod.snd).sum_eq
  simp only [get_object_list]
  rw [hperm]
  simp [objectList]
  omega

/-! ## The record loop of `examine_media`

A media record carries the truthiness of the fields the loop tests plus its
path, handle and change time.  The host environment is modelled by
`mpf : String → String` (`media_path_full(db, path)`) and
`fs : String → Option Nat` (`os.path.getsize`: `some size` on success,
`none` when it raises the missing-file `OSError`). -/

structure MediaObj where
  handle : String
  change : Int
  hasDesc : Bool
  hasDate : Bool
  hasMime : Bool
  isPrivate : Bool
  hasTags : Bool
  path : String

/-- The accumulator variables of `examine_media`'s loop. -/
structure MediaState where
  no_desc : Nat
  no_date : Nat
  no_path : Nat
  no_mime : Nat
  uncited : Nat
  privateCount : Nat
  tagged : Nat
  size_bytes : Nat
  not_found : List String
  last_changed : List (String × Int)

def mediaInit : MediaState :=
  ⟨0, 0, 0, 0, 0, 0, 0, 0, [], []⟩

/-- One iteration of the `for media in db.iter_media()` loop.  The Python
body increments disjoint counters in sequence; the updates are rendered as
one simultaneous record update.  On a non-empty path the size of
`media_path_full(db, media.path)` is added to `size_bytes`; when the lookup
raises `OSError` the path is instead appended to `not_found` unless already
present.  (`uncited` is initialised but never incremented by this loop.) -/
def examine_media_step (mpf : String → String) (fs : String → Option Nat)
    (s : MediaState) (m : MediaObj) : MediaState where
  no_desc := s.no_desc + (if m.hasDesc then 0 else 1)
  no_date := s.no_date + (if m.hasDate then 0 else 1)
  no_mime := s.no_mime + (if m.hasMime then 0 else 1)
  privateCount := s.privateCount + (if m.isPrivate then 1 else 0)
  tagged := s.tagged + (if m.hasTags then 1 else 0)
  uncited := s.uncited
  no_path := s.no_path + (if m.path = "" then 1 else 0)
  size_bytes := s.size_bytes +
    (if m.path = "" then 0
     else match fs (mpf m.path) with
       | some size => size
       | none => 0)
  not_found :=
    if m.path ≠ "" ∧ fs (mpf m.path) = none ∧ m.path ∉ s.not_found
    then s.not_found ++ [m.path] else s.not_found
  last_changed := analyze_change s.last_changed m.handle m.change 20

/-- The whole record loop of `examine_media`, from the initial accumulator
state.  The payload built afterwards stores `not_found` verbatim under
`media_not_found`. -/
def examine_media_run (mpf : String → String) (fs : String → Option Nat)
    (medias : List MediaObj) : MediaState :=
  medias.foldl (examine_media_step mpf fs) mediaInit

/-- Whether the size lookup for a media record fails with the missing-file
`OSError` (the record has a path and `getsize` finds no file there). -/
def sizeLookupFails (mpf : String → String) (fs : String → Option Nat)
    (m : MediaObj) : Prop :=
  m.path ≠ "" ∧ fs (mpf m.path) = none

instance (mpf : String → String) (fs : String → Option Nat) (m : MediaObj) :
    Decidable (sizeLookupFails mpf fs m) := by
  unfold sizeLookupFails
  infer_instance

/-- The size a media record contributes to the byte total. -/
def sizeContribution (mpf : String → String) (fs : String → Option Nat)
    (m : MediaObj) : Nat :=
  if m.path = "" then 0
  else match fs (mpf m.path) with
    | some size => size
    | none => 0

/-- One loop step, restated: membership of the not-found list. -/
theorem examine_media_step_not_found_mem (mpf : String → String)
    (fs : String → Option Nat) (s : MediaState) (m : MediaObj) (p : String) :
    p ∈ (examine_media_step mpf fs s m).not_found ↔
      p ∈ s.not_found ∨ (m.path = p ∧ sizeLookupFails mpf fs m) := by
  simp only [examine_media_step, sizeLookupFails]
  by_cases hfail : m.path ≠ "" ∧ fs (mpf m.path) = none ∧ m.path ∉ s.not_found
  · rw [if_pos hfail]
    simp only [List.mem_append, List.mem_singleton]
    constructor
    · rintro (hp | hp)
      · exact Or.inl hp
      · exact Or.inr ⟨hp.symm, hfail.1, hfail.2.1⟩
    · rintro (hp | ⟨hp, _, hnone⟩)
      · exact Or.inl hp
      · exact Or.inr hp.symm
  · rw [if_neg hfail]
    constructor
    · exact Or.inl
    · rintro (hp | ⟨hp, hne, hnone⟩)
      · exact hp
      · subst hp
        by_cases hmem : m.path ∈ s.not_found
        · exact hmem
        · exact absurd ⟨hne, hnone, hmem⟩ hfail

/-- One loop step preserves distinctness of the not-found list. -/
theorem examine_media_step_not_found_nodup (mpf : String → String)
    (fs : String → Option Nat) (s : MediaState) (m : MediaObj)
    (hnd : s.not_found.Nodup) :
    (examine_media_step mpf fs s m).not_found.Nodup := by
  simp only [examine_media_step]
  by_cases hfail : m.path ≠ "" ∧ fs (mpf m.path) = none ∧ m.path ∉ s.not_found
  · rw [if_pos hfail]
    rw [List.nodup_append]
    exact ⟨hnd, List.nodup_singleton _,
      fun a ha hb => hfail.2.2 (List.mem_singleton.mp hb ▸ ha)⟩
  · rwa [if_neg hfail]

/-- One loop step adds exactly the record's size contribution. -/
theorem examine_media_step_size (mpf : String → String)
    (fs : String → Option Nat) (s : MediaState) (m : MediaObj) :
    (examine_media_step mpf fs s m).size_bytes =
      s.size_bytes + sizeContribution mpf fs m := rfl

/-- Generalised loop invariant for the `examine_media` fold, relative to an
arbitrary starting accumulator state. -/
theorem examine_media_fold_spec (mpf : String → String)
    (fs : String → Option Nat) (medias : List MediaObj) :
    ∀ s0 : MediaState, s0.not_found.Nodup →
      (medias.foldl (examine_media_step mpf fs) s0).not_found.Nodup ∧
      (∀ p, p ∈ (medias.foldl (examine_media_step mpf fs) s0).not_found ↔
        p ∈ s0.not_found ∨ ∃ m ∈ medias, m.path = p ∧ sizeLookupFails mpf fs m) ∧
      (medias.foldl (examine_media_step mpf fs) s0).size_bytes =
        s0.size_bytes + (medias.map (sizeContribution mpf fs)).sum := by
  induction medias with
  | nil =>
    intro s0 hnd
    simp only [List.foldl_nil, List.map_nil, List.sum_nil, Nat.add_zero]
    exact ⟨hnd, fun p => by simp, trivial⟩
  | cons m rest ih =>
    intro s0 hnd
    simp only [List.foldl_cons, List.map_cons, List.sum_cons]
    obtain ⟨hnd2, hmem2, hsize2⟩ :=
      ih (examine_media_step mpf fs s0 m)
        (examine_media_step_not_found_nodup mpf fs s0 m hnd)
    refine ⟨hnd2, fun p => ?_, by
      rw [hsize2, examine_media_step_size]
      omega⟩
    rw [hmem2 p, examine_media_step_not_found_mem mpf fs s0 m p]
    constructor
    · rintro ((hp | ⟨hp, hf⟩) | ⟨m', hm', hp, hf⟩)
      · exact Or.inl hp
      · exact Or.inr ⟨m, List.mem_cons_self m rest, hp, hf⟩
      · exact Or.inr ⟨m', List.mem_cons_of_mem m hm', hp, hf⟩
    · rintro (hp | ⟨m', hm', hp, hf⟩)
      · exact Or.inl (Or.inl hp)
      · rcases List.mem_cons.mp hm' with hm' | hm'
        · subst hm'
          exact Or.inl (Or.inr ⟨hp, hf⟩)
        · exact Or.inr ⟨m', hm', hp, hf⟩

/-- Loop characterisation of `examine_media`: the not-found list holds
exactly the distinct paths whose size lookup failed, and the byte total is
the sum of the successfully looked-up sizes. -/
theorem examine_media_run_spec (mpf : String → String)
    (fs : String → Option Nat) (medias : List MediaObj) :
    (examine_media_run mpf fs medias).not_found.Nodup ∧
    (∀ p, p ∈ (examine_media_run mpf fs medias).not_found ↔
      ∃ m ∈ medias, m.path = p ∧ sizeLookupFails mpf fs m) ∧
    (examine_media_run mpf fs medias).size_bytes =
      (medias.map (sizeContribution mpf fs)).sum := by
  unfold examine_media_run
  obtain ⟨hnd, hmem, hsize⟩ :=
    examine_media_fold_spec mpf fs medias mediaInit List.nodup_nil
  refine ⟨hnd, fun p => ?_, by simpa [mediaInit] using hsize⟩
  rw [hmem p]
  simp [mediaInit]

/-! ## The orchestration of `main`

`main` builds, for each object type name returned by `get_object_list`, a
fresh `Queue` stored under that name and a `Process` running the
`TASK_HANDLERS` entry for that name with that queue, and starts it.  It then
runs `examine_bookmarks` in-process, reverses the name list, and for each
name does a blocking `queues[name].get()`, a blocking `workers[name].join()`
and a `fold` of the result into the facts.  The trace below transcribes
this sequence of effects; queues are identified by the object type name
they are stored under in `queues`. -/

inductive MEv
  | createQueue (queueId : String)
  | spawnWorker (objType : String) (queueId : String)
  | runBookmarks
  | getResult (queueId : String)
  | joinWorker (objType : String)
  | foldResult
deriving DecidableEq

/-- The host-effect sequence of `main` after `get_object_list` returned the
name list `objList`. -/
def mainTrace (objList : List String) : List MEv :=
  (objList.flatMap fun t => [MEv.createQueue t, MEv.spawnWorker t t]) ++
  [MEv.runBookmarks] ++
  (objList.reverse.flatMap fun t =>
    [MEv.getResult t, MEv.joinWorker t, MEv.foldResult])

/-- Spawn events in the fan-out phase count occurrences of the name. -/
theorem count_spawn_flatMap (names : List String) (t : String) :
    ((names.flatMap fun u => [MEv.createQueue u, MEv.spawnWorker u u]).count
      (MEv.spawnWorker t t)) = names.count t := by
  induction names with
  | nil => rfl
  | cons u rest ih =>
    simp only [List.flatMap_cons, List.cons_append, List.nil_append,
      List.count_cons, ih, List.count_append]
    by_cases hu : u = t
    · subst hu
      simp [List.count_cons]
    · have h1 : (MEv.createQueue u == MEv.spawnWorker t t) = false := by
        simp
      have h2 : (MEv.spawnWorker u u == MEv.spawnWorker t t) = false := by
        simp [hu]
      simp [List.count_cons, h1, h2, hu]

/-- Get events in the fan-in phase count occurrences of the name. -/
theorem count_get_flatMap (names : List String) (t : String) :
    ((names.flatMap fun u =>
      [MEv.getResult u, MEv.joinWorker u, MEv.foldResult]).count
        (MEv.getResult t)) = names.count t := by
  induction names with
  | nil => rfl
  | cons u rest ih =>
    simp only [List.flatMap_cons, List.cons_append, List.nil_append,
      List.count_cons, ih, List.count_append]
    by_cases hu : u = t
    · subst hu
      simp [List.count_cons]
    · simp [List.count_cons, hu]

/-- Join events in the fan-in phase count occurrences of the name. -/
theorem count_join_flatMap (names : List String) (t : String) :
    ((names.flatMap fun u =>
      [MEv.getResult u, MEv.joinWorker u, MEv.foldResult]).count
        (MEv.joinWorker t)) = names.count t := by
  induction names with
  | nil => rfl
  | cons u rest ih =>
    simp only [List.flatMap_cons, List.cons_append, List.nil_append,
      List.count_cons, ih, List.count_append]
    by_cases hu : u = t
    · subst hu
      simp [List.count_cons]
    · simp [List.count_cons, hu]

/-- Every name occurring once in `objList` is spawned once, collected once
and joined once by `main`. -/
theorem mainTrace_counts (objList : List String) (t : String) :
    (mainTrace objList).count (MEv.spawnWorker t t) = objList.count t ∧
    (mainTrace objList).count (MEv.getResult t) = objList.count t ∧
    (mainTrace objList).count (MEv.joinWorker t) = objList.count t := by
  unfold mainTrace
  simp only [List.count_append, count_spawn_flatMap, count_get_flatMap,
    count_join_flatMap, List.count_reverse]
  refine ⟨?_, ?_, ?_⟩ <;>
    simp [List.count_eq_zero, List.mem_flatMap, List.count_cons]

/-! ## `close_readonly_database`

The filesystem is modelled as the list of paths of existing files.  The
host calls are modelled after their documented behaviour, which is exactly
what `close_readonly_database`'s own docstring relies on: closing a
read-only database instance deletes the lock file in its save directory,
and `write_lock_file(dir)` (re)creates it.  `DBLOCKFN` is the lock file
name from `gramps.gen.db`. -/

def DBLOCKFN : String := "lock"

/-- `os.path.join(save_dir, DBLOCKFN)`. -/
def lockPath (saveDir : String) : String := saveDir ++ "/" ++ DBLOCKFN

/-- `os.path.isfile`. -/
def isfile (fs : List String) (p : String) : Bool := decide (p ∈ fs)

/-- Modelled from the host API: `db.close(update=False)` on a read-only
instance removes the lock file from the save directory (the behaviour the
docstring of `close_readonly_database` compensates for). -/
def db_close (fs : List String) (saveDir : String) : List String :=
  fs.erase (lockPath saveDir)

/-- Modelled from the host API: `write_lock_file(dir)` creates the lock
file in `dir`. -/
def write_lock_file (fs : List String) (saveDir : String) : List String :=
  if lockPath saveDir ∈ fs then fs else fs ++ [lockPath saveDir]

/-- `close_readonly_database(db)`: remember whether the lock file exists,
close the database, and rewrite the lock file if it existed before. -/
def close_readonly_database (fs : List String) (saveDir : String) :
    List String :=
  let save_dir : Option String :=
    if isfile fs (lockPath saveDir) then some saveDir else none
  let fs2 := db_close fs saveDir
  match save_dir with
  | some d => write_lock_file fs2 d
  | none => fs2

/-- The lock file survives `close_readonly_database` exactly when it was
there before. -/
theorem close_readonly_database_lock (fs : List String) (saveDir : String) :
    (lockPath saveDir ∈ close_readonly_database fs saveDir) ↔
      lockPath saveDir ∈ fs := by
  unfold close_readonly_database
  simp only [isfile, decide_eq_true_eq]
  by_cases hmem : lockPath saveDir ∈ fs
  · simp only [hmem, if_true, write_lock_file]
    by_cases h2 : lockPath saveDir ∈ db_close fs saveDir
    · simp [h2, hmem]
    · simp [h2, hmem]
  · simp only [hmem, if_false, iff_false]
    intro h
    exact hmem (List.mem_of_mem_erase h)

/-! ## The default (pickled) output of `main`

After the fold loop, the non-YAML branch executes

    sys.stdout = io.TextIOWrapper(sys.stdout.detach(), encoding="latin-1")
    print(pickle.dumps(facts).decode("latin-1"), end="", flush=True)

`pickle.dumps` is host-library serialisation, modelled as an arbitrary
function into byte lists together with its inverse `pickle.loads`;
`bytes.decode("latin-1")` maps byte `i` to the character with code point
`i`, and encoding with `latin-1` inverts it (failing on code points above
255).  `print` with `end=""` emits the string with nothing appended. -/

/-- `bytes.decode("latin-1")`: byte `i` becomes code point `i`. -/
def latin1_decode (bs : List Nat) : List Char :=
  bs.map Char.ofNat

/-- `str.encode("latin-1")`: succeeds exactly when every character is a
latin-1 code point, mapping it back to the equal byte. -/
def latin1_encode (cs : List Char) : Option (List Nat) :=
  if cs.all fun c => c.toNat < 256 then some (cs.map Char.toNat) else none

/-- `print(s, end=end_)` writes `s` followed by `end_`. -/
def py_print (s endStr : List Char) : List Char := s ++ endStr

/-- The text `main` writes to stdout in the default branch:
`print(pickle.dumps(facts).decode("latin-1"), end="")`. -/
def main_stdout {Facts : Type} (dumps : Facts → List Nat) (facts : Facts) :
    List Char :=
  py_print (latin1_decode (dumps facts)) []

/-- For a latin-1 code point, `Char.ofNat` and `Char.toNat` are inverse. -/
theorem char_toNat_ofNat (n : Nat) (h : n < 256) :
    (Char.ofNat n).toNat = n := by
  have hv : n < 55296 ∨ 57343 < n ∧ n < 1114112 := Or.inl (by omega)
  simp only [Char.ofNat, Char.ofNatAux, hv, dif_pos, Char.toNat]
  rfl

/-- Latin-1 decoding of bytes is inverted by latin-1 encoding. -/
theorem latin1_encode_decode (bs : List Nat) (hb : ∀ b ∈ bs, b < 256) :
    latin1_encode (latin1_decode bs) = some bs := by
  unfold latin1_encode latin1_decode
  have hall : ((bs.map Char.ofNat).all fun c => decide (c.toNat < 256))
      = true := by
    rw [List.all_eq_true]
    intro c hc
    obtain ⟨b, hbmem, rfl⟩ := List.mem_map.mp hc
    rw [decide_eq_true_eq, char_toNat_ofNat b (hb b hbmem)]
    exact hb b hbmem
  rw [if_pos hall, List.map_map]
  congr 1
  have hcong : ∀ b ∈ bs, (Char.toNat ∘ Char.ofNat) b = id b := by
    intro b hbmem
    simp only [Function.comp_apply, id_eq]
    exact char_toNat_ofNat b (hb b hbmem)
  rw [List.map_congr_left hcong, List.map_id]

/-! ## `fold`: merging payload dictionaries

    def fold(one, two):
        for key in two.keys():
            if key not in one:
                one.update({key: two[key]})
            else:
                for subkey in two[key]:
                    if subkey not in one[key]:
                        one[key].update({subkey: two[key][subkey]})

Python dictionaries are embedded as insertion-ordered association lists
with unique keys; `dict.update` with a fresh key appends, and mutating
`one[key]` replaces that entry's value in place.  `fold` mutates `one` and
only reads `two`; the embedding returns the new value of `one`. -/

section Fold

variable {α β σ ν : Type} [DecidableEq α] [DecidableEq σ]

/-- Dictionary lookup `d[k]` / `k in d`: the first matching entry. -/
def dget : List (α × β) → α → Option β
  | [], _ => none
  | (k', v) :: rest, k => if k' = k then some v else dget rest k

/-- In-place replacement of the value stored under an existing key. -/
def dset : List (α × β) → α → β → List (α × β)
  | [], _, _ => []
  | (k', v') :: rest, k, v =>
    if k' = k then (k', v) :: rest else (k', v') :: dset rest k v

/-- The inner loop of `fold`: append each subkey of `two[key]` that is not
yet in `one[key]`, with its value from `two[key]`. -/
def mergeInner (i sv : List (σ × ν)) : List (σ × ν) :=
  sv.foldl (fun i skv => if (dget i skv.1).isSome then i else i ++ [skv]) i

/-- One iteration of `for key in two.keys()`: a missing key is appended
with `two`'s whole inner dictionary; an existing key has the missing
subkeys merged into its inner dictionary. -/
def foldStep (one : List (α × List (σ × ν))) (kv : α × List (σ × ν)) :
    List (α × List (σ × ν)) :=
  match dget one kv.1 with
  | none => one ++ [kv]
  | some innerOne => dset one kv.1 (mergeInner innerOne kv.2)

/-- `fold(one, two)` from `statistics_worker.py`. -/
def fold (one two : List (α × List (σ × ν))) : List (α × List (σ × ν)) :=
  two.foldl foldStep one

/-- Two-level lookup `one[k][sk]`. -/
def dget2 (d : List (α × List (σ × ν))) (k : α) (sk : σ) : Option ν :=
  match dget d k with
  | none => none
  | some i => dget i sk

/-- A Python dictionary has no repeated keys. -/
def NodupKeys (d : List (α × β)) : Prop :=
  (d.map Prod.fst).Nodup

instance (d : List (α × β)) : Decidable (NodupKeys d) := by
  unfold NodupKeys
  infer_instance

/-! ### Lookup, replacement and append -/

theorem dget_eq_none_iff (d : List (α × β)) (k : α) :
    dget d k = none ↔ k ∉ d.map Prod.fst := by
  induction d with
  | nil => simp [dget]
  | cons kv rest ih =>
    obtain ⟨k', v⟩ := kv
    by_cases hk : k' = k
    · subst hk
      simp [dget]
    · simp [dget, hk, ih, Ne.symm hk]

theorem dget_isSome_of_mem {d : List (σ × ν)} {sk : σ} {v : ν}
    (h : (sk, v) ∈ d) : (dget d sk).isSome := by
  induction d with
  | nil => cases h
  | cons kv rest ih =>
    obtain ⟨k', v'⟩ := kv
    by_cases hk : k' = sk
    · simp [dget, hk]
    · rcases List.mem_cons.mp h with h | h
      · cases h
        exact absurd rfl hk
      · simpa [dget, hk] using ih h

theorem dget_append_some {d : List (α × β)} {k : α} {v : β}
    (h : dget d k = some v) (kv : α × β) :
    dget (d ++ [kv]) k = some v := by
  induction d with
  | nil => cases h
  | cons kv' rest ih =>
    obtain ⟨k', v'⟩ := kv'
    by_cases hk : k' = k
    · subst hk
      simp [dget] at h
      simp [dget, h]
    · simp only [dget, hk, if_false] at h
      simpa [dget, hk] using ih h

theorem dget_append_none {d : List (α × β)} {k : α}
    (h : dget d k = none) (kv : α × β) :
    dget (d ++ [kv]) k = if kv.1 = k then some kv.2 else none := by
  induction d with
  | nil => simp [dget]
  | cons kv' rest ih =>
    obtain ⟨k', v'⟩ := kv'
    by_cases hk : k' = k
    · simp [dget, hk] at h
    · simp only [dget, hk, if_false] at h
      simpa [dget, hk] using ih h

theorem dget_dset_self {d : List (α × β)} {k : α}
    (h : (dget d k).isSome) (v : β) :
    dget (dset d k v) k = some v := by
  induction d with
  | nil => simp [dget] at h
  | cons kv rest ih =>
    obtain ⟨k', v'⟩ := kv
    by_cases hk : k' = k
    · simp [dset, dget, hk]
    · simp only [dget, hk, if_false] at h
      simpa [dset, dget, hk] using ih h

theorem dget_dset_ne {d : List (α × β)} {k k' : α} (hne : k' ≠ k) (v : β) :
    dget (dset d k v) k' = dget d k' := by
  induction d with
  | nil => rfl
  | cons kv rest ih =>
    obtain ⟨k0, v0⟩ := kv
    by_cases hk : k0 = k
    · subst hk
      simp [dset, dget, Ne.symm hne]
    · by_cases hk' : k0 = k'
      · subst hk'
        simp [dset, dget, hk]
      · simpa [dset, dget, hk, hk'] using ih

theorem dset_eq_of_dget {d : List (α × β)} {k : α} {v : β}
    (h : dget d k = some v) : dset d k v = d := by
  induction d with
  | nil => cases h
  | cons kv rest ih =>
    obtain ⟨k', v'⟩ := kv
    by_cases hk : k' = k
    · simp only [dget, hk, if_true, Option.some.injEq] at h
      simp [dset, hk, h]
    · simp only [dget, hk, if_false] at h
      simp [dset, hk, ih h]

theorem map_fst_dset (d : List (α × β)) (k : α) (v : β) :
    (dset d k v).map Prod.fst = d.map Prod.fst := by
  induction d with
  | nil => rfl
  | cons kv rest ih =>
    obtain ⟨k', v'⟩ := kv
    by_cases hk : k' = k
    · simp [dset, hk]
    · simp [dset, hk, ih]

/-! ### The inner merge loop -/

theorem mergeInner_cons (i : List (σ × ν)) (skv : σ × ν)
    (rest : List (σ × ν)) :
    mergeInner i (skv :: rest) =
      mergeInner (if (dget i skv.1).isSome then i else i ++ [skv]) rest :=
  rfl

theorem mergeInner_preserves {i : List (σ × ν)} {sk : σ} {v : ν}
    (sv : List (σ × ν)) (h : dget i sk = some v) :
    dget (mergeInner i sv) sk = some v := by
  induction sv generalizing i with
  | nil => exact h
  | cons skv rest ih =>
    rw [mergeInner_cons]
    by_cases hmem : (dget i skv.1).isSome
    · rw [if_pos hmem]
      exact ih h
    · rw [if_neg hmem]
      exact ih (dget_append_some h skv)

theorem mergeInner_absent {i : List (σ × ν)} {sk : σ}
    (sv : List (σ × ν)) (h : dget i sk = none) :
    dget (mergeInner i sv) sk = dget sv sk := by
  induction sv generalizing i with
  | nil => exact h
  | cons skv rest ih =>
    obtain ⟨sk0, v0⟩ := skv
    rw [mergeInner_cons]
    by_cases hk : sk0 = sk
    · subst hk
      have hnot : ¬(dget i (sk0, v0).1).isSome := by
        simp [h]
      rw [if_neg hnot]
      have happ : dget (i ++ [(sk0, v0)]) sk0 = some v0 := by
        simpa using dget_append_none h (sk0, v0)
      rw [mergeInner_preserves rest happ]
      simp [dget]
    · by_cases hmem : (dget i (sk0, v0).1).isSome
      · rw [if_pos hmem, ih h]
        simp [dget, hk]
      · rw [if_neg hmem]
        have hnone : dget (i ++ [(sk0, v0)]) sk = none := by
          simpa [hk] using dget_append_none h (sk0, v0)
        rw [ih hnone]
        simp [dget, hk]

theorem mergeInner_isSome_of_mem {i sv : List (σ × ν)} {sk : σ} {v : ν}
    (h : (sk, v) ∈ sv) : (dget (mergeInner i sv) sk).isSome := by
  cases hi : dget i sk with
  | some w =>
    rw [mergeInner_preserves sv hi]
    rfl
  | none =>
    rw [mergeInner_absent sv hi]
    exact dget_isSome_of_mem h

theorem mergeInner_id {i sv : List (σ × ν)}
    (h : ∀ skv ∈ sv, (dget i skv.1).isSome) : mergeInner i sv = i := by
  induction sv with
  | nil => rfl
  | cons skv rest ih =>
    rw [mergeInner_cons, if_pos (h skv (List.mem_cons_self skv rest))]
    exact ih fun skv' hmem => h skv' (List.mem_cons_of_mem skv hmem)

/-! ### One iteration of the outer loop -/

theorem foldStep_dget_self (one : List (α × List (σ × ν)))
    (kv : α × List (σ × ν)) :
    dget (foldStep one kv) kv.1 =
      some (match dget one kv.1 with
        | none => kv.2
        | some i => mergeInner i kv.2) := by
  unfold foldStep
  cases hone : dget one kv.1 with
  | none =>
    have := dget_append_none hone kv
    simpa using this
  | some i =>
    exact dget_dset_self (by simp [hone]) _

theorem foldStep_dget_ne (one : List (α × List (σ × ν)))
    (kv : α × List (σ × ν)) (k' : α) (hne : k' ≠ kv.1) :
    dget (foldStep one kv) k' = dget one k' := by
  unfold foldStep
  cases hone : dget one kv.1 with
  | none =>
    cases hone' : dget one k' with
    | none =>
      have := dget_append_none hone' kv
      simpa [Ne.symm hne] using this
    | some v => exact dget_append_some hone' kv
  | some i => exact dget_dset_ne hne _

theorem foldStep_preserves_some {one : List (α × List (σ × ν))} {k : α}
    {sk : σ} {v : ν} (kv : α × List (σ × ν))
    (h : dget2 one k sk = some v) :
    dget2 (foldStep one kv) k sk = some v := by
  by_cases hk : k = kv.1
  · unfold dget2 at h ⊢
    rw [hk] at h ⊢
    rw [foldStep_dget_self one kv]
    cases hone : dget one kv.1 with
    | none => simp [hone] at h
    | some i =>
      simp only [hone] at h ⊢
      exact mergeInner_preserves kv.2 h
  · unfold dget2 at h ⊢
    rw [foldStep_dget_ne one kv k hk]
    exact h

theorem foldStep_id {one : List (α × List (σ × ν))}
    {kv : α × List (σ × ν)} {i : List (σ × ν)}
    (hget : dget one kv.1 = some i)
    (hall : ∀ skv ∈ kv.2, (dget i skv.1).isSome) :
    foldStep one kv = one := by
  unfold foldStep
  rw [hget]
  show dset one kv.1 (mergeInner i kv.2) = one
  rw [mergeInner_id hall]
  exact dset_eq_of_dget hget

theorem foldStep_nodupKeys {one : List (α × List (σ × ν))}
    (kv : α × List (σ × ν)) (hnd : NodupKeys one) :
    NodupKeys (foldStep one kv) := by
  unfold foldStep
  cases hone : dget one kv.1 with
  | none =>
    unfold NodupKeys at hnd ⊢
    rw [List.map_append, List.nodup_append]
    refine ⟨hnd, by simp, ?_⟩
    intro a ha hb
    simp only [List.map_cons, List.map_nil, List.mem_singleton] at hb
    subst hb
    exact ((dget_eq_none_iff one kv.1).mp hone) ha
  | some i =>
    unfold NodupKeys at hnd ⊢
    rwa [map_fst_dset]

/-! ### The whole fold -/

theorem fold_cons (one : List (α × List (σ × ν)))
    (kv : α × List (σ × ν)) (rest : List (α × List (σ × ν))) :
    fold one (kv :: rest) = fold (foldStep one kv) rest :=
  rfl

theorem fold_preserves_some {one two : List (α × List (σ × ν))} {k : α}
    {sk : σ} {v : ν} (h : dget2 one k sk = some v) :
    dget2 (fold one two) k sk = some v := by
  induction two generalizing one with
  | nil => exact h
  | cons kv rest ih =>
    rw [fold_cons]
    exact ih (foldStep_preserves_some kv h)

theorem fold_dget_of_not_key {one two : List (α × List (σ × ν))} {k : α}
    (h : k ∉ two.map Prod.fst) :
    dget (fold one two) k = dget one k := by
  induction two generalizing one with
  | nil => rfl
  | cons kv rest ih =>
    rw [fold_cons]
    simp only [List.map_cons, List.mem_cons, not_or] at h
    rw [ih h.2]
    exact foldStep_dget_ne one kv k h.1

theorem fold_nodupKeys {one two : List (α × List (σ × ν))}
    (hnd : NodupKeys one) : NodupKeys (fold one two) := by
  induction two generalizing one with
  | nil => exact hnd
  | cons kv rest ih =>
    rw [fold_cons]
    exact ih (foldStep_nodupKeys kv hnd)

theorem fold_absent {one two : List (α × List (σ × ν))} {k : α} {sk : σ}
    {v : ν} (hone : dget2 one k sk = none) (htwo : dget2 two k sk = some v) :
    dget2 (fold one two) k sk = some v := by
  induction two generalizing one with
  | nil => simp [dget2, dget] at htwo
  | cons kv rest ih =>
    obtain ⟨k0, sv0⟩ := kv
    rw [fold_cons]
    by_cases hk : k0 = k
    · subst hk
      unfold dget2 at htwo
      simp only [dget, if_pos rfl] at htwo
      have hstep : dget2 (foldStep one (k0, sv0)) k0 sk = some v := by
        unfold dget2
        rw [foldStep_dget_self one (k0, sv0)]
        unfold dget2 at hone
        cases hone' : dget one k0 with
        | none => simpa using htwo
        | some i =>
          rw [hone'] at hone
          simpa using (mergeInner_absent sv0 hone).trans htwo
      exact fold_preserves_some hstep
    · unfold dget2 at htwo
      simp only [dget, hk, if_false] at htwo
      refine ih ?_ htwo
      unfold dget2 at hone ⊢
      rw [foldStep_dget_ne one (k0, sv0) k fun heq => hk heq.symm]
      exact hone

theorem fold_id {one two : List (α × List (σ × ν))}
    (h : ∀ kv ∈ two, ∃ i, dget one kv.1 = some i ∧
      ∀ skv ∈ kv.2, (dget i skv.1).isSome) :
    fold one two = one := by
  induction two with
  | nil => rfl
  | cons kv rest ih =>
    obtain ⟨i, hget, hall⟩ := h kv (List.mem_cons_self kv rest)
    rw [fold_cons, foldStep_id hget hall]
    exact ih fun kv' hmem => h kv' (List.mem_cons_of_mem kv hmem)

theorem fold_complete {two : List (α × List (σ × ν))}
    (hnd : NodupKeys two) :
    ∀ (one : List (α × List (σ × ν))), ∀ kv ∈ two,
      ∃ i, dget (fold one two) kv.1 = some i ∧
        ∀ skv ∈ kv.2, (dget i skv.1).isSome := by
  induction two with
  | nil =>
    intro one kv hkv
    cases hkv
  | cons kv0 rest ih =>
    intro one kv hkv
    have hnd' : NodupKeys rest := by
      unfold NodupKeys at hnd ⊢
      exact (List.nodup_cons.mp hnd).2
    have hk0 : kv0.1 ∉ rest.map Prod.fst := by
      unfold NodupKeys at hnd
      exact (List.nodup_cons.mp hnd).1
    rcases List.mem_cons.mp hkv with hkv | hkv
    · subst hkv
      rw [fold_cons]
      refine ⟨match dget one kv.1 with
        | none => kv.2
        | some i => mergeInner i kv.2, ?_, ?_⟩
      · rw [fold_dget_of_not_key hk0]
        exact foldStep_dget_self one kv
      · intro skv hskv
        cases hone : dget one kv.1 with
        | none =>
          simp only [hone]
          obtain ⟨sk', v'⟩ := skv
          exact dget_isSome_of_mem hskv
        | some i =>
          simp only [hone]
          obtain ⟨sk', v'⟩ := skv
          exact mergeInner_isSome_of_mem hskv
    · rw [fold_cons]
      exact ih hnd' (foldStep one kv0) kv hkv

/-- `fold` applied a second time with the same `two` changes nothing. -/
theorem fold_idem {one two : List (α × List (σ × ν))}
    (hnd : NodupKeys two) :
    fold (fold one two) two = fold one two :=
  fold_id (fold_complete hnd one)

end Fold

/-! ## The claims -/

/-- Claim C1, evaluated at a failing input: feeding the records
`("a", 1)` then `("b", 2)` to `analyze_change` with bound
`max_length = 1`, starting from the empty list, leaves `[("a", 1)]` —
the record with the *smallest* change value, not the greatest.  After the
insertion the ascending list is `[("a", 1), ("b", 2)]` and
`obj_list.pop(max_length)` removes index 1, its largest element; the
bounded list therefore converges to the `N` smallest change values,
contradicting the claimed (and, per the docstring "last modified list",
intended) top-N-greatest behaviour. -/
theorem analyze_change_keeps_smallest_on_overflow :
    analyze_change (analyze_change [] "a" 1 1) "b" 2 1 = [("a", 1)] := by
  decide

/-- Claim C2, evaluated on the handlers' effect sequences: of the ten
`examine_*` handlers, exactly `examine_media` fails to close its database
before queueing its payload — its body has no `close_readonly_database`
call at all, while the other nine close between the record loop and the
`queue.put(payload)`. -/
theorem examine_media_only_handler_without_close :
    ObjType.all.filter (fun o => !(closesBeforePut (handlerTrace o))) =
      [ObjType.media] := by
  decide

/-- Claim C3: after `fold(one, two)`, every `(k, sk)` entry present in
`one` beforehand still has its old value (nothing is overwritten), and
every `(k, sk)` entry absent from `one` but present in `two` now has
`two`'s value.  `fold` only reads `two`, so `two` is unchanged (in this
embedding `fold` is a pure function of `two`). -/
theorem fold_merge_semantics {α σ ν : Type} [DecidableEq α] [DecidableEq σ]
    (one two : List (α × List (σ × ν))) (k : α) (sk : σ) (v : ν) :
    (dget2 one k sk = some v → dget2 (fold one two) k sk = some v) ∧
    (dget2 one k sk = none → dget2 two k sk = some v →
      dget2 (fold one two) k sk = some v) :=
  ⟨fun h => fold_preserves_some h, fun h1 h2 => fold_absent h1 h2⟩

/-- Witness for C3 at concrete dictionaries: the pre-existing entry
`one["a"]["x"] = 1` survives the fold despite `two["a"]["x"] = 5`, and
the absent entry `("b", "z")` is filled in from `two`. -/
theorem fold_merge_semantics_witness :
    dget2 (fold [("a", [("x", 1)])]
      [("a", [("x", 5), ("y", 2)]), ("b", [("z", 3)])]) "a" "x" =
        some 1 ∧
    dget2 (fold [("a", [("x", 1)])]
      [("a", [("x", 5), ("y", 2)]), ("b", [("z", 3)])]) "b" "z" =
        some 3 :=
  ⟨(fold_merge_semantics [("a", [("x", 1)])]
      [("a", [("x", 5), ("y", 2)]), ("b", [("z", 3)])] "a" "x" 1).1
      (by decide),
   (fold_merge_semantics [("a", [("x", 1)])]
      [("a", [("x", 5), ("y", 2)]), ("b", [("z", 3)])] "b" "z" 3).2
      (by decide) (by decide)⟩

/-- Claim C4: in `examine_media`, a missing-file `OSError` from the size
lookup of a non-empty path is caught and the loop continues; the
`not_found` list (queued verbatim as `media_not_found`) holds exactly the
distinct paths whose size lookup failed, each at most once, and a failed
path contributes nothing to the accumulated byte total. -/
theorem examine_media_oserror_handling (mpf : String → String)
    (fs : String → Option Nat) (medias : List MediaObj) :
    (examine_media_run mpf fs medias).not_found.Nodup ∧
    (∀ p, p ∈ (examine_media_run mpf fs medias).not_found ↔
      ∃ m ∈ medias, m.path = p ∧ sizeLookupFails mpf fs m) ∧
    (examine_media_run mpf fs medias).size_bytes =
      (medias.map (sizeContribution mpf fs)).sum :=
  examine_media_run_spec mpf fs medias

/-- Witness for C4 at a concrete stream: two records point at the missing
path `"gone"`, one at the existing path `"ok"` of size 7. -/
theorem examine_media_oserror_handling_witness :
    (examine_media_run id (fun p => if p = "gone" then none else some 7)
      [⟨"h1", 1, true, true, true, false, false, "gone"⟩,
       ⟨"h2", 2, true, true, true, false, false, "ok"⟩,
       ⟨"h3", 3, true, true, true, false, false, "gone"⟩]).not_found.Nodup :=
  (examine_media_oserror_handling id
    (fun p => if p = "gone" then none else some 7)
    [⟨"h1", 1, true, true, true, false, false, "gone"⟩,
     ⟨"h2", 2, true, true, true, false, false, "ok"⟩,
     ⟨"h3", 3, true, true, true, false, false, "gone"⟩]).1

/-- Claim C5: `analyze_change` preserves the bounded-sorted invariant —
from a list sorted ascending by change value of length at most
`max_length` it produces one again sorted ascending of length at most
`max_length` — and consequently the fold of the per-record calls with
bound 20, started from the empty list as in every examine worker, always
yields a `changed` list of at most 20 entries sorted ascending by change
value. -/
theorem analyze_change_bounded_sorted_invariant :
    (∀ (l : List (String × Int)) (hdl : String) (c : Int) (m : Nat),
      l.Pairwise (fun a b => a.2 ≤ b.2) → l.length ≤ m →
      (analyze_change l hdl c m).Pairwise (fun a b => a.2 ≤ b.2) ∧
      (analyze_change l hdl c m).length ≤ m) ∧
    (∀ records : List (String × Int),
      (runChanges records).Pairwise (fun a b => a.2 ≤ b.2) ∧
      (runChanges records).length ≤ 20) :=
  ⟨fun l hdl c m hs hlen =>
    ⟨analyze_change_pairwise l hdl c m hs,
     analyze_change_length l hdl c m hlen⟩,
   runChanges_invariant⟩

/-- Witness for C5 at a concrete sorted two-element list with bound 2. -/
theorem analyze_change_bounded_sorted_invariant_witness :
    (analyze_change [("a", 1), ("b", 3)] "c" 2 2).Pairwise
      (fun a b : String × Int => a.2 ≤ b.2) ∧
    (analyze_change [("a", 1), ("b", 3)] "c" 2 2).length ≤ 2 :=
  analyze_change_bounded_sorted_invariant.1 [("a", 1), ("b", 3)] "c" 2 2
    (by decide) (by decide)

/-- Claim C6: `get_object_list` returns the ten object type names as a
permutation ordered by non-increasing object count, together with the sum
of the ten per-type counts. -/
theorem get_object_list_spec (d : DbCounts) :
    (get_object_list d).2.Perm tenNames ∧
    (sortDescending (objectList d)).Pairwise (fun a b => b.2 ≤ a.2) ∧
    (get_object_list d).2 = (sortDescending (objectList d)).map Prod.fst ∧
    (get_object_list d).1 =
      d.people + d.families + d.events + d.places + d.media + d.sources +
      d.citations + d.repositories + d.notes + d.tags :=
  ⟨get_object_list_perm d, sortDescending_pairwise (objectList d), rfl,
   get_object_list_total d⟩

/-- The ten type names are distinct and each occurs once. -/
theorem tenNames_count : ∀ t ∈ tenNames, tenNames.count t = 1 := by
  decide

theorem tenNames_nodup : tenNames.Nodup := by
  decide

/-- Claim C7: `main` is a one-shot fan-out/fan-in — for every database it
spawns exactly one worker per object type name on that type's own queue,
and collects exactly one payload from and performs exactly one join on
each worker; the name list is duplicate-free, so the queues are dedicated;
and each handler's effect sequence puts exactly one payload. -/
theorem main_one_shot_fanout_fanin :
    (∀ (d : DbCounts) (t : String), t ∈ tenNames →
      (mainTrace (get_object_list d).2).count (MEv.spawnWorker t t) = 1 ∧
      (mainTrace (get_object_list d).2).count (MEv.getResult t) = 1 ∧
      (mainTrace (get_object_list d).2).count (MEv.joinWorker t) = 1) ∧
    (∀ d : DbCounts, (get_object_list d).2.Nodup) ∧
    (∀ o : ObjType, putCount (handlerTrace o) = 1) := by
  refine ⟨?_, ?_, ?_⟩
  · intro d t ht
    have hcount : (get_object_list d).2.count t = 1 := by
      rw [(get_object_list_perm d).count_eq]
      exact tenNames_count t ht
    obtain ⟨h1, h2, h3⟩ := mainTrace_counts (get_object_list d).2 t
    rw [h1, h2, h3, hcount]
    exact ⟨rfl, rfl, rfl⟩
  · intro d
    exact ((get_object_list_perm d).nodup_iff).mpr tenNames_nodup
  · intro o
    cases o <;> rfl

/-- Witness for C7: on the all-empty database, the worker for `"Person"`
is spawned, collected and joined exactly once. -/
theorem main_one_shot_fanout_fanin_witness :
    (mainTrace (get_object_list ⟨0, 0, 0, 0, 0, 0, 0, 0, 0, 0⟩).2).count
      (MEv.spawnWorker "Person" "Person") = 1 :=
  (main_one_shot_fanout_fanin.1 ⟨0, 0, 0, 0, 0, 0, 0, 0, 0, 0⟩ "Person"
    (by decide)).1

/-- Claim C8: `close_readonly_database` preserves the host lock file — it
is present in the save directory after the call exactly when it was
present before (rewritten after the close that deletes it; never created
when absent). -/
theorem close_readonly_database_preserves_lock (fs : List String)
    (saveDir : String) :
    lockPath saveDir ∈ close_readonly_database fs saveDir ↔
      lockPath saveDir ∈ fs :=
  close_readonly_database_lock fs saveDir

/-- Witness for C8: with the lock file present it survives the close. -/
theorem close_readonly_database_preserves_lock_witness :
    lockPath "db" ∈ close_readonly_database [lockPath "db"] "db" :=
  (close_readonly_database_preserves_lock [lockPath "db"] "db").mpr
    (List.mem_singleton.mpr rfl)

/-- Claim C9: the default output of `main` is exactly the latin-1 decoding
of the pickle serialisation of the facts, with nothing (no newline)
appended, and re-encoding that text as latin-1 and unpickling recovers the
facts.  `pickle` is modelled as an arbitrary serialiser `dumps` into bytes
with inverse `loads`. -/
theorem main_default_output_roundtrip {Facts : Type}
    (dumps : Facts → List Nat) (loads : List Nat → Option Facts)
    (facts : Facts)
    (hinv : ∀ x, loads (dumps x) = some x)
    (hbyte : ∀ b ∈ dumps facts, b < 256) :
    main_stdout dumps facts = latin1_decode (dumps facts) ∧
    (latin1_encode (main_stdout dumps facts)).bind loads = some facts := by
  have hout : main_stdout dumps facts = latin1_decode (dumps facts) := by
    simp [main_stdout, py_print]
  refine ⟨hout, ?_⟩
  rw [hout, latin1_encode_decode (dumps facts) hbyte, Option.some_bind]
  exact hinv facts

/-- Witness for C9 with a two-value fact type and a one-byte pickle. -/
theorem main_default_output_roundtrip_witness :
    main_stdout (fun b : Bool => [if b then 1 else 0]) true =
      latin1_decode [1] ∧
    (latin1_encode (main_stdout (fun b : Bool => [if b then 1 else 0])
        true)).bind
      (fun bs => if bs = [1] then some true
        else if bs = [0] then some false else none) = some true :=
  main_default_output_roundtrip (fun b : Bool => [if b then 1 else 0])
    (fun bs => if bs = [1] then some true
      else if bs = [0] then some false else none)
    true (fun x => by cases x <;> decide) (by decide)

/-- Claim C10: `fold` is idempotent in its second argument — folding the
same dictionary `two` (a Python dict, so with unique keys) in twice leaves
`one` exactly as after the first fold. -/
theorem fold_idempotent_second_arg {α σ ν : Type} [DecidableEq α]
    [DecidableEq σ] (one two : List (α × List (σ × ν)))
    (hnd : NodupKeys two) :
    fold (fold one two) two = fold one two :=
  fold_idem hnd

/-- Witness for C10 at concrete dictionaries mixing present and absent
keys and subkeys. -/
theorem fold_idempotent_second_arg_witness :
    fold (fold [("a", [("x", 1)])]
        [("a", [("x", 5), ("y", 2)]), ("b", [("z", 3)])])
      [("a", [("x", 5), ("y", 2)]), ("b", [("z", 3)])] =
    fold [("a", [("x", 1)])]
      [("a", [("x", 5), ("y", 2)]), ("b", [("z", 3)])] :=
  fold_idempotent_second_arg [("a", [("x", 1)])]
    [("a", [("x", 5), ("y", 2)]), ("b", [("z", 3)])] (by decide)

end StatisticsWorker
